import Mathlib

/-!
# Verification of the compression-library-benchmark harness

A shallow embedding of the benchmarking harness: the JSON payload model
(the data every adapter encodes and decodes), the five library adapters
from `src/utils/libraries.ts`, the size/ratio utilities, the benchmark
orchestrator loop and best-score fold from `src/App.tsx`, and the payload
lifecycle handlers.

Machine reals are modelled as rationals (`ℚ`), with `WithTop ℚ` where the
code uses JavaScript's `Infinity`; byte sequences (`Uint8Array`) are
`List ℕ`; fallible operations return `Option`.  The external compression
libraries (pako, fflate, lz-string, cbor2, messagepack) and the browser
built-ins `TextEncoder`/`TextDecoder` are external collaborators of the
repository, so the adapters are parametrised by them; `JSON.stringify` /
`JSON.parse` are modelled concretely below on the integer-numeral,
whitespace-free JSON fragment.
-/

/-- The JSON-serializable payloads the harness benchmarks: maps, arrays,
strings, integer numerals, booleans and null.  Numbers are modelled as
integers (the fragment on which the embedding is exact). -/
inductive JsonVal where
  | null : JsonVal
  | bool (b : Bool) : JsonVal
  | num (n : Int) : JsonVal
  | str (s : String) : JsonVal
  | arr (elems : List JsonVal) : JsonVal
  | obj (fields : List (String × JsonVal)) : JsonVal

/-- The decimal digit characters, used when rendering numbers. -/
def digitChar : Nat → Char
  | 0 => '0' | 1 => '1' | 2 => '2' | 3 => '3' | 4 => '4'
  | 5 => '5' | 6 => '6' | 7 => '7' | 8 => '8' | _ => '9'

/-- The hexadecimal digit characters, used in `\u00XX` escapes. -/
def hexDigit : Nat → Char
  | 0 => '0' | 1 => '1' | 2 => '2' | 3 => '3' | 4 => '4'
  | 5 => '5' | 6 => '6' | 7 => '7' | 8 => '8' | 9 => '9'
  | 10 => 'a' | 11 => 'b' | 12 => 'c' | 13 => 'd' | 14 => 'e' | _ => 'f'

/-- Decimal rendering worker, structurally recursive on a fuel bound
(adequate whenever `n ≤ fuel`). -/
def natToCharsAux : Nat → Nat → List Char
  | 0, n => [digitChar (n % 10)]
  | fuel + 1, n =>
      if n < 10 then [digitChar n]
      else natToCharsAux fuel (n / 10) ++ [digitChar (n % 10)]

/-- Decimal rendering of a natural number, most significant digit first. -/
def natToChars (n : Nat) : List Char := natToCharsAux n n

/-- Decimal rendering of an integer (minus sign for negatives), as
`JSON.stringify` renders integral numbers. -/
def intToChars (n : Int) : List Char :=
  if n < 0 then '-' :: natToChars n.natAbs else natToChars n.toNat

/-- One character of JSON string-escaping, exactly as `JSON.stringify`
escapes: quote, backslash, the named control escapes, `\u00XX` for other
control characters, and everything else verbatim. -/
def escapeChar (c : Char) : List Char :=
  if c = '"' then ['\\', '"']
  else if c = '\\' then ['\\', '\\']
  else if c = Char.ofNat 8 then ['\\', 'b']
  else if c = Char.ofNat 9 then ['\\', 't']
  else if c = Char.ofNat 10 then ['\\', 'n']
  else if c = Char.ofNat 12 then ['\\', 'f']
  else if c = Char.ofNat 13 then ['\\', 'r']
  else if c.toNat < 32 then
    ['\\', 'u', '0', '0', hexDigit (c.toNat / 16), hexDigit (c.toNat % 16)]
  else [c]

/-- JSON string-escaping of a character list. -/
def escapeChars : List Char → List Char
  | [] => []
  | c :: cs => escapeChar c ++ escapeChars cs

mutual

/-- Modelled from the spec: the `JSON.stringify` browser built-in that every
text-based adapter delegates to (the repository contains no serialization
logic of its own), restricted to the integer-numeral JSON fragment and
rendered without whitespace, as `JSON.stringify` renders with no spacing
argument. -/
def stringifyVal : JsonVal → List Char
  | .null => 'n' :: ['u', 'l', 'l']
  | .bool true => 't' :: ['r', 'u', 'e']
  | .bool false => 'f' :: ['a', 'l', 's', 'e']
  | .num n => intToChars n
  | .str s => '"' :: (escapeChars s.data ++ ['"'])
  | .arr es => '[' :: (stringifyElems es ++ [']'])
  | .obj fs => '{' :: (stringifyFields fs ++ ['}'])

/-- Comma-separated rendering of array elements. -/
def stringifyElems : List JsonVal → List Char
  | [] => []
  | [v] => stringifyVal v
  | v :: vs => stringifyVal v ++ ',' :: stringifyElems vs

/-- Comma-separated rendering of object fields (`"key":value`). -/
def stringifyFields : List (String × JsonVal) → List Char
  | [] => []
  | [(k, v)] => '"' :: (escapeChars k.data ++ '"' :: ':' :: stringifyVal v)
  | (k, v) :: fs =>
      ('"' :: (escapeChars k.data ++ '"' :: ':' :: stringifyVal v))
        ++ ',' :: stringifyFields fs

end

/-- `JSON.stringify` producing a `String`. -/
def jsonStringify (v : JsonVal) : String := String.mk (stringifyVal v)

/-- Parse a run of decimal digits, accumulating into `acc`; stops at the
first non-digit. -/
def parseDigitsAux (acc : Nat) : List Char → Nat × List Char
  | [] => (acc, [])
  | c :: cs =>
      if c.isDigit then parseDigitsAux (acc * 10 + (c.toNat - 48)) cs
      else (acc, c :: cs)

/-- Numeric value of a hexadecimal digit character. -/
def hexVal (c : Char) : Option Nat :=
  if '0' ≤ c ∧ c ≤ '9' then some (c.toNat - 48)
  else if 'a' ≤ c ∧ c ≤ 'f' then some (c.toNat - 87)
  else if 'A' ≤ c ∧ c ≤ 'F' then some (c.toNat - 55)
  else none

/-- Parse the body of a JSON string literal after the opening quote, up to
and including the closing quote; returns the unescaped characters and the
remaining input.  Mirrors `JSON.parse`: the named escapes, `\uXXXX`, and a
rejection of raw control characters. -/
def parseStrAux : List Char → Option (List Char × List Char)
  | [] => none
  | '"' :: cs => some ([], cs)
  | '\\' :: 'u' :: h1 :: h2 :: h3 :: h4 :: cs =>
      match hexVal h1, hexVal h2, hexVal h3, hexVal h4 with
      | some a, some b, some c, some d =>
          let n := ((a * 16 + b) * 16 + c) * 16 + d
          if _h : n.isValidChar then
            (parseStrAux cs).map (fun p => (Char.ofNat n :: p.1, p.2))
          else none
      | _, _, _, _ => none
  | '\\' :: e :: cs =>
      if e = '"' then (parseStrAux cs).map (fun p => ('"' :: p.1, p.2))
      else if e = '\\' then (parseStrAux cs).map (fun p => ('\\' :: p.1, p.2))
      else if e = '/' then (parseStrAux cs).map (fun p => ('/' :: p.1, p.2))
      else if e = 'b' then (parseStrAux cs).map (fun p => (Char.ofNat 8 :: p.1, p.2))
      else if e = 't' then (parseStrAux cs).map (fun p => (Char.ofNat 9 :: p.1, p.2))
      else if e = 'n' then (parseStrAux cs).map (fun p => (Char.ofNat 10 :: p.1, p.2))
      else if e = 'f' then (parseStrAux cs).map (fun p => (Char.ofNat 12 :: p.1, p.2))
      else if e = 'r' then (parseStrAux cs).map (fun p => (Char.ofNat 13 :: p.1, p.2))
      else none
  | c :: cs =>
      if c.toNat < 32 then none
      else (parseStrAux cs).map (fun p => (c :: p.1, p.2))

mutual

/-- Modelled from the spec: the `JSON.parse` browser built-in the text-based
adapters reconstruct payloads with (the repository contains no parsing logic
of its own), on the integer-numeral, whitespace-free JSON fragment; failure
(a thrown `SyntaxError`) is `none`.  Structured as a fuel-indexed
recursive-descent parser returning the value and the unconsumed input. -/
def parseVal : Nat → List Char → Option (JsonVal × List Char)
  | 0, _ => none
  | _ + 1, [] => none
  | fuel + 1, c :: cs =>
      if c = 'n' then
        match cs with
        | 'u' :: 'l' :: 'l' :: rest => some (.null, rest)
        | _ => none
      else if c = 't' then
        match cs with
        | 'r' :: 'u' :: 'e' :: rest => some (.bool true, rest)
        | _ => none
      else if c = 'f' then
        match cs with
        | 'a' :: 'l' :: 's' :: 'e' :: rest => some (.bool false, rest)
        | _ => none
      else if c = '"' then
        (parseStrAux cs).map (fun p => (.str (String.mk p.1), p.2))
      else if c = '[' then
        match cs with
        | ']' :: rest2 => some (.arr [], rest2)
        | _ => (parseElems fuel cs).map (fun p => (.arr p.1, p.2))
      else if c = '{' then
        match cs with
        | '}' :: rest2 => some (.obj [], rest2)
        | _ => (parseFields fuel cs).map (fun p => (.obj p.1, p.2))
      else if c = '-' then
        match cs with
        | c2 :: cs2 =>
            if c2.isDigit then
              let p := parseDigitsAux 0 (c2 :: cs2)
              some (.num (-(p.1 : Int)), p.2)
            else none
        | [] => none
      else if c.isDigit then
        let p := parseDigitsAux 0 (c :: cs)
        some (.num (p.1 : Int), p.2)
      else none

/-- Parse a non-empty comma-separated list of array elements up to and
including the closing `]`. -/
def parseElems : Nat → List Char → Option (List JsonVal × List Char)
  | 0, _ => none
  | fuel + 1, cs =>
      match parseVal fuel cs with
      | none => none
      | some (v, rest) =>
          match rest with
          | ',' :: rest2 =>
              (parseElems fuel rest2).map (fun p => (v :: p.1, p.2))
          | ']' :: rest2 => some ([v], rest2)
          | _ => none

/-- Parse a non-empty comma-separated list of object fields up to and
including the closing `}`. -/
def parseFields : Nat → List Char → Option (List (String × JsonVal) × List Char)
  | 0, _ => none
  | fuel + 1, cs =>
      match cs with
      | '"' :: cs1 =>
          match parseStrAux cs1 with
          | none => none
          | some (k, rest) =>
              match rest with
              | ':' :: rest1 =>
                  match parseVal fuel rest1 with
                  | none => none
                  | some (v, rest2) =>
                      match rest2 with
                      | ',' :: rest3 =>
                          (parseFields fuel rest3).map
                            (fun p => ((String.mk k, v) :: p.1, p.2))
                      | '}' :: rest3 => some ([(String.mk k, v)], rest3)
                      | _ => none
              | _ => none
      | _ => none

end

/-- `JSON.parse` on a whole string: the parsed value when the input is
consumed exactly, `none` (a thrown `SyntaxError`) otherwise. -/
def jsonParse (s : String) : Option JsonVal :=
  match parseVal (s.data.length + 1) s.data with
  | some (v, []) => some v
  | _ => none

theorem digitChar_toNat {d : Nat} (h : d < 10) : (digitChar d).toNat = 48 + d := by
  interval_cases d <;> rfl

theorem digitChar_isDigit {d : Nat} (h : d < 10) : (digitChar d).isDigit = true := by
  interval_cases d <;> rfl

theorem natToCharsAux_eq (f : Nat) : ∀ g n, n ≤ f → n ≤ g → natToCharsAux f n = natToCharsAux g n := by
  induction f with
  | zero =>
      intro g n hf hg
      have hn : n = 0 := Nat.le_zero.mp hf
      subst hn
      cases g with
      | zero => rfl
      | succ g => simp [natToCharsAux]
  | succ f ih =>
      intro g n hf hg
      by_cases h10 : n < 10
      · cases g with
        | zero =>
            have hn : n = 0 := Nat.le_zero.mp hg
            subst hn
            simp [natToCharsAux]
        | succ g => simp [natToCharsAux, h10]
      · cases g with
        | zero => omega
        | succ g =>
            simp only [natToCharsAux, h10, if_false]
            rw [ih g (n / 10) (by omega) (by omega)]

theorem natToChars_eq (n : Nat) :
    natToChars n = if n < 10 then [digitChar n] else natToChars (n / 10) ++ [digitChar (n % 10)] := by
  by_cases h10 : n < 10
  · cases n with
    | zero => simp [natToChars, natToCharsAux]
    | succ m => simp [natToChars, natToCharsAux, h10]
  · cases n with
    | zero => omega
    | succ m =>
        simp only [natToChars, natToCharsAux, h10, if_false]
        rw [natToCharsAux_eq m ((m + 1) / 10) ((m + 1) / 10) (by omega) (by omega)]

theorem natToChars_ne_nil (n : Nat) : natToChars n ≠ [] := by
  rw [natToChars_eq]
  by_cases h10 : n < 10 <;> simp [h10]

theorem natToChars_head (n : Nat) :
    ∃ c t, natToChars n = c :: t ∧ c.isDigit = true := by
  induction n using Nat.strong_induction_on with
  | _ n ih =>
    rw [natToChars_eq]
    by_cases h10 : n < 10
    · exact ⟨digitChar n, [], by simp [h10], digitChar_isDigit h10⟩
    · obtain ⟨c, t, hct, hd⟩ := ih (n / 10) (by omega)
      exact ⟨c, t ++ [digitChar (n % 10)], by simp [h10, hct], hd⟩

/-- Character lists on which a digit run stops: empty or non-digit head. -/
def noDigitHead : List Char → Prop
  | [] => True
  | c :: _ => c.isDigit = false

theorem parseDigitsAux_stop (acc : Nat) (rest : List Char) (h : noDigitHead rest) :
    parseDigitsAux acc rest = (acc, rest) := by
  cases rest with
  | nil => rfl
  | cons c cs => simp [parseDigitsAux, noDigitHead] at h ⊢; simp [h]

theorem parseDigitsAux_chars (n : Nat) : ∀ acc rest,
    parseDigitsAux acc (natToChars n ++ rest)
      = parseDigitsAux (acc * 10 ^ (natToChars n).length + n) rest := by
  induction n using Nat.strong_induction_on with
  | _ n ih =>
    intro acc rest
    rw [natToChars_eq]
    by_cases h10 : n < 10
    · simp only [h10, if_true, List.cons_append, List.nil_append, List.length_cons,
        List.length_nil]
      rw [parseDigitsAux]
      simp [digitChar_isDigit h10, digitChar_toNat h10]
    · simp only [h10, if_false, List.append_assoc, List.cons_append, List.nil_append,
        List.length_append, List.length_cons, List.length_nil]
      rw [ih (n / 10) (by omega) acc (digitChar (n % 10) :: rest)]
      rw [parseDigitsAux]
      have h9 : n % 10 < 10 := Nat.mod_lt _ (by omega)
      simp only [digitChar_isDigit h9, if_true, digitChar_toNat h9]
      congr 1
      have : 48 + n % 10 - 48 = n % 10 := by omega
      rw [this, pow_succ]
      have := Nat.div_add_mod n 10
      ring_nf
      omega

theorem parseDigits_roundtrip (n : Nat) (rest : List Char) (h : noDigitHead rest) :
    parseDigitsAux 0 (natToChars n ++ rest) = (n, rest) := by
  rw [parseDigitsAux_chars, Nat.zero_mul, Nat.zero_add, parseDigitsAux_stop _ _ h]

theorem hexVal_hexDigit {m : Nat} (h : m < 16) : hexVal (hexDigit m) = some m := by
  interval_cases m <;> rfl

theorem parseStrAux_u (x1 x2 x3 x4 : Char) (cs : List Char) (a b c d : Nat)
    (h1 : hexVal x1 = some a) (h2 : hexVal x2 = some b)
    (h3 : hexVal x3 = some c) (h4 : hexVal x4 = some d)
    (hv : Nat.isValidChar (((a * 16 + b) * 16 + c) * 16 + d)) :
    parseStrAux ('\\' :: 'u' :: x1 :: x2 :: x3 :: x4 :: cs)
      = (parseStrAux cs).map
          (fun p => (Char.ofNat (((a * 16 + b) * 16 + c) * 16 + d) :: p.1, p.2)) := by
  conv_lhs => rw [parseStrAux.eq_def]
  simp [h1, h2, h3, h4, hv]

theorem parseStrAux_cons (c : Char) (cs : List Char)
    (h1 : c ≠ '"') (h2 : c ≠ '\\') (h3 : ¬ c.toNat < 32) :
    parseStrAux (c :: cs) = (parseStrAux cs).map (fun p => (c :: p.1, p.2)) := by
  conv_lhs => rw [parseStrAux.eq_def]
  split <;> simp_all

theorem parseStr_escape (cs : List Char) : ∀ rest,
    parseStrAux (escapeChars cs ++ '"' :: rest) = some (cs, rest) := by
  induction cs with
  | nil => intro rest; rfl
  | cons c cs ih =>
    intro rest
    rw [show escapeChars (c :: cs) = escapeChar c ++ escapeChars cs from rfl,
      List.append_assoc]
    by_cases hq : c = '"'
    · subst hq
      rw [show escapeChar '"' = ['\\', '"'] from rfl]
      simp only [List.cons_append, List.nil_append]
      rw [show ∀ X, parseStrAux ('\\' :: '"' :: X)
            = (parseStrAux X).map (fun p => ('"' :: p.1, p.2)) from fun X => rfl, ih]
      rfl
    by_cases hb2 : c = '\\'
    · subst hb2
      rw [show escapeChar '\\' = ['\\', '\\'] from rfl]
      simp only [List.cons_append, List.nil_append]
      rw [show ∀ X, parseStrAux ('\\' :: '\\' :: X)
            = (parseStrAux X).map (fun p => ('\\' :: p.1, p.2)) from fun X => rfl, ih]
      rfl
    by_cases h8 : c = Char.ofNat 8
    · subst h8
      rw [show escapeChar (Char.ofNat 8) = ['\\', 'b'] from rfl]
      simp only [List.cons_append, List.nil_append]
      rw [show ∀ X, parseStrAux ('\\' :: 'b' :: X)
            = (parseStrAux X).map (fun p => (Char.ofNat 8 :: p.1, p.2)) from fun X => rfl, ih]
      rfl
    by_cases h9 : c = Char.ofNat 9
    · subst h9
      rw [show escapeChar (Char.ofNat 9) = ['\\', 't'] from rfl]
      simp only [List.cons_append, List.nil_append]
      rw [show ∀ X, parseStrAux ('\\' :: 't' :: X)
            = (parseStrAux X).map (fun p => (Char.ofNat 9 :: p.1, p.2)) from fun X => rfl, ih]
      rfl
    by_cases h10 : c = Char.ofNat 10
    · subst h10
      rw [show escapeChar (Char.ofNat 10) = ['\\', 'n'] from rfl]
      simp only [List.cons_append, List.nil_append]
      rw [show ∀ X, parseStrAux ('\\' :: 'n' :: X)
            = (parseStrAux X).map (fun p => (Char.ofNat 10 :: p.1, p.2)) from fun X => rfl, ih]
      rfl
    by_cases h12 : c = Char.ofNat 12
    · subst h12
      rw [show escapeChar (Char.ofNat 12) = ['\\', 'f'] from rfl]
      simp only [List.cons_append, List.nil_append]
      rw [show ∀ X, parseStrAux ('\\' :: 'f' :: X)
            = (parseStrAux X).map (fun p => (Char.ofNat 12 :: p.1, p.2)) from fun X => rfl, ih]
      rfl
    by_cases h13 : c = Char.ofNat 13
    · subst h13
      rw [show escapeChar (Char.ofNat 13) = ['\\', 'r'] from rfl]
      simp only [List.cons_append, List.nil_append]
      rw [show ∀ X, parseStrAux ('\\' :: 'r' :: X)
            = (parseStrAux X).map (fun p => (Char.ofNat 13 :: p.1, p.2)) from fun X => rfl, ih]
      rfl
    by_cases h32 : c.toNat < 32
    · rw [show escapeChar c
            = ['\\', 'u', '0', '0', hexDigit (c.toNat / 16), hexDigit (c.toNat % 16)]
          from by simp [escapeChar, hq, hb2, h8, h9, h10, h12, h13, h32]]
      simp only [List.cons_append, List.nil_append]
      rw [parseStrAux_u '0' '0' (hexDigit (c.toNat / 16)) (hexDigit (c.toNat % 16)) _
        0 0 (c.toNat / 16) (c.toNat % 16) rfl rfl
        (hexVal_hexDigit (by omega)) (hexVal_hexDigit (by omega))
        (by left; omega), ih]
      have hval : ((0 * 16 + 0) * 16 + c.toNat / 16) * 16 + c.toNat % 16 = c.toNat := by
        omega
      rw [hval, Char.ofNat_toNat]
      rfl
    · rw [show escapeChar c = [c]
          from by simp [escapeChar, hq, hb2, h8, h9, h10, h12, h13, h32]]
      simp only [List.cons_append, List.nil_append]
      rw [parseStrAux_cons c _ hq hb2 h32, ih]
      rfl

mutual

/-- Recursion depth of a JSON value, bounding the parser fuel it needs. -/
def sizeJ : JsonVal → Nat
  | .null => 1
  | .bool _ => 1
  | .num _ => 1
  | .str _ => 1
  | .arr es => sizeL es + 1
  | .obj fs => sizeF fs + 1

/-- Recursion depth of an array-element list. -/
def sizeL : List JsonVal → Nat
  | [] => 0
  | v :: vs => sizeJ v + sizeL vs + 1

/-- Recursion depth of an object-field list. -/
def sizeF : List (String × JsonVal) → Nat
  | [] => 0
  | (_, v) :: fs => sizeJ v + sizeF fs + 1

end

theorem sizeJ_pos (v : JsonVal) : 1 ≤ sizeJ v := by
  cases v <;> simp [sizeJ]

mutual

theorem sizeJ_le_len : ∀ v : JsonVal, sizeJ v ≤ (stringifyVal v).length
  | .null => by simp [sizeJ, stringifyVal]
  | .bool b => by cases b <;> simp [sizeJ, stringifyVal]
  | .num n => by
      simp only [sizeJ, stringifyVal, intToChars]
      by_cases h : n < 0
      · simp only [h, if_true, List.length_cons]
        omega
      · simp only [h, if_false]
        have := natToChars_ne_nil n.toNat
        cases hh : natToChars n.toNat with
        | nil => exact absurd hh this
        | cons c t => simp
  | .str s => by simp [sizeJ, stringifyVal]
  | .arr es => by
      have := sizeL_le_len es
      simp only [sizeJ, stringifyVal, List.length_cons, List.length_append]
      omega
  | .obj fs => by
      have := sizeF_le_len fs
      simp only [sizeJ, stringifyVal, List.length_cons, List.length_append]
      omega

theorem sizeL_le_len : ∀ es : List JsonVal, sizeL es ≤ (stringifyElems es).length + 1
  | [] => by simp [sizeL, stringifyElems]
  | [v] => by
      have := sizeJ_le_len v
      simp only [sizeL, stringifyElems]
      omega
  | v :: w :: vs => by
      have h1 := sizeJ_le_len v
      have h2 := sizeL_le_len (w :: vs)
      have h3 : sizeL (w :: vs) = sizeJ w + sizeL vs + 1 := by simp [sizeL]
      simp only [sizeL, stringifyElems, List.length_append, List.length_cons]
      omega

theorem sizeF_le_len : ∀ fs : List (String × JsonVal), sizeF fs ≤ (stringifyFields fs).length + 1
  | [] => by simp [sizeF, stringifyFields]
  | [(k, v)] => by
      have := sizeJ_le_len v
      simp only [sizeF, stringifyFields, List.length_cons, List.length_append]
      omega
  | (k, v) :: (k2, v2) :: fs => by
      have h1 := sizeJ_le_len v
      have h2 := sizeF_le_len ((k2, v2) :: fs)
      have h3 : sizeF ((k2, v2) :: fs) = sizeJ v2 + sizeF fs + 1 := by simp [sizeF]
      simp only [sizeF, stringifyFields, List.length_append, List.length_cons]
      omega

end


theorem isDigit_ne_letters {c : Char} (h : c.isDigit = true) :
    c ≠ 'n' ∧ c ≠ 't' ∧ c ≠ 'f' ∧ c ≠ '"' ∧ c ≠ '[' ∧ c ≠ '{' ∧ c ≠ '-' := by
  refine ⟨?_, ?_, ?_, ?_, ?_, ?_, ?_⟩ <;> (rintro rfl; exact absurd h (by decide))

theorem parseVal_quote (fuel : Nat) (X : List Char) :
    parseVal (fuel + 1) ('"' :: X)
      = (parseStrAux X).map (fun p => (.str (String.mk p.1), p.2)) := by
  simp [parseVal]

theorem parseVal_neg (fuel : Nat) (c : Char) (cs : List Char) :
    parseVal (fuel + 1) ('-' :: c :: cs)
      = if c.isDigit = true then
          some (.num (-((parseDigitsAux 0 (c :: cs)).1 : Int)), (parseDigitsAux 0 (c :: cs)).2)
        else none := by
  simp [parseVal]

theorem parseVal_digit (fuel : Nat) (c : Char) (cs : List Char) (h : c.isDigit = true) :
    parseVal (fuel + 1) (c :: cs)
      = some (.num ((parseDigitsAux 0 (c :: cs)).1 : Int), (parseDigitsAux 0 (c :: cs)).2) := by
  obtain ⟨h1, h2, h3, h4, h5, h6, h7⟩ := isDigit_ne_letters h
  simp [parseVal, h, h1, h2, h3, h4, h5, h6, h7]

theorem parseVal_lbrack (fuel : Nat) (c : Char) (l : List Char) (h : c ≠ ']') :
    parseVal (fuel + 1) ('[' :: c :: l)
      = (parseElems fuel (c :: l)).map (fun p => (.arr p.1, p.2)) := by
  simp only [parseVal]
  rw [if_neg (by decide), if_neg (by decide), if_neg (by decide), if_neg (by decide)]
  simp only [if_true]
  split <;> simp_all

theorem parseVal_lbrace (fuel : Nat) (c : Char) (l : List Char) (h : c ≠ '}') :
    parseVal (fuel + 1) ('{' :: c :: l)
      = (parseFields fuel (c :: l)).map (fun p => (.obj p.1, p.2)) := by
  simp only [parseVal]
  rw [if_neg (by decide), if_neg (by decide), if_neg (by decide), if_neg (by decide),
    if_neg (by decide)]
  simp only [if_true]
  split <;> simp_all

theorem stringify_head (v : JsonVal) :
    ∃ c t, stringifyVal v = c :: t ∧ c ≠ ']' ∧ c ≠ '}' := by
  cases v with
  | null => exact ⟨'n', _, rfl, by decide, by decide⟩
  | bool b =>
      cases b with
      | false => exact ⟨'f', _, rfl, by decide, by decide⟩
      | true => exact ⟨'t', _, rfl, by decide, by decide⟩
  | num n =>
      simp only [stringifyVal, intToChars]
      by_cases hneg : n < 0
      · exact ⟨'-', natToChars n.natAbs, by simp [hneg], by decide, by decide⟩
      · obtain ⟨c, t, hct, hd⟩ := natToChars_head n.toNat
        refine ⟨c, t, by simp [hneg, hct], ?_, ?_⟩
        · rintro rfl; exact absurd hd (by decide)
        · rintro rfl; exact absurd hd (by decide)
  | str s => exact ⟨'"', _, rfl, by decide, by decide⟩
  | arr es => exact ⟨'[', _, rfl, by decide, by decide⟩
  | obj fs => exact ⟨'{', _, rfl, by decide, by decide⟩

theorem parse_stringify_fuel (fuel : Nat) :
    (∀ v rest, sizeJ v ≤ fuel → noDigitHead rest →
       parseVal fuel (stringifyVal v ++ rest) = some (v, rest))
    ∧ (∀ es rest, es ≠ [] → sizeL es ≤ fuel →
       parseElems fuel (stringifyElems es ++ ']' :: rest) = some (es, rest))
    ∧ (∀ fs rest, fs ≠ [] → sizeF fs ≤ fuel →
       parseFields fuel (stringifyFields fs ++ '}' :: rest) = some (fs, rest)) := by
  induction fuel with
  | zero =>
      refine ⟨fun v rest hv _ => absurd hv (by have := sizeJ_pos v; omega),
              fun es rest hne hs => ?_, fun fs rest hne hs => ?_⟩
      · cases es with
        | nil => exact absurd rfl hne
        | cons v vs => simp [sizeL] at hs
      · cases fs with
        | nil => exact absurd rfl hne
        | cons f fs =>
            obtain ⟨k, v⟩ := f
            simp [sizeF] at hs
  | succ fuel ih =>
      obtain ⟨ihV, ihE, ihF⟩ := ih
      refine ⟨?_, ?_, ?_⟩
      · -- values
        intro v rest hv hrest
        cases v with
        | null => simp [stringifyVal, parseVal]
        | bool b => cases b <;> simp [stringifyVal, parseVal]
        | num n =>
            simp only [stringifyVal, intToChars]
            by_cases hneg : n < 0
            · simp only [hneg, if_true, List.cons_append]
              obtain ⟨c, t, hct, hd⟩ := natToChars_head n.natAbs
              rw [hct, List.cons_append, parseVal_neg, if_pos hd,
                ← List.cons_append, ← hct, parseDigits_roundtrip _ _ hrest]
              have hval : -((n.natAbs : Int)) = n := by omega
              rw [hval]
            · simp only [hneg, if_false]
              obtain ⟨c, t, hct, hd⟩ := natToChars_head n.toNat
              rw [hct, List.cons_append, parseVal_digit _ _ _ hd,
                ← List.cons_append, ← hct, parseDigits_roundtrip _ _ hrest]
              have hval : ((n.toNat : Int)) = n := by omega
              rw [hval]
        | str s =>
            obtain ⟨d⟩ := s
            show parseVal (fuel + 1) (('"' :: (escapeChars d ++ ['"'])) ++ rest) = _
            rw [List.cons_append, List.append_assoc,
              show ['"'] ++ rest = '"' :: rest from rfl,
              parseVal_quote, parseStr_escape d rest]
            rfl
        | arr es =>
            cases es with
            | nil => simp [stringifyVal, stringifyElems, parseVal]
            | cons v vs =>
                show parseVal (fuel + 1)
                    (('[' :: (stringifyElems (v :: vs) ++ [']'])) ++ rest) = _
                rw [List.cons_append, List.append_assoc,
                  show [']'] ++ rest = ']' :: rest from rfl]
                obtain ⟨c, t, hct, hc1, hc2⟩ := stringify_head v
                have hX : ∃ X, stringifyElems (v :: vs) = stringifyVal v ++ X := by
                  cases vs with
                  | nil => exact ⟨[], by simp [stringifyElems]⟩
                  | cons w ws => exact ⟨',' :: stringifyElems (w :: ws), by simp [stringifyElems]⟩
                obtain ⟨X, hXeq⟩ := hX
                rw [hXeq, hct, List.cons_append, List.cons_append,
                  parseVal_lbrack _ _ _ hc1,
                  ← List.cons_append, ← List.cons_append, ← hct, ← hXeq]
                have hsz : sizeL (v :: vs) ≤ fuel := by
                  simp only [sizeJ] at hv; omega
                rw [ihE (v :: vs) rest (by simp) hsz]
                rfl
        | obj fs =>
            cases fs with
            | nil => simp [stringifyVal, stringifyFields, parseVal]
            | cons f fs =>
                obtain ⟨k, v⟩ := f
                show parseVal (fuel + 1)
                    (('{' :: (stringifyFields ((k, v) :: fs) ++ ['}'])) ++ rest) = _
                rw [List.cons_append, List.append_assoc,
                  show ['}'] ++ rest = '}' :: rest from rfl]
                have hX : ∃ X, stringifyFields ((k, v) :: fs)
                    = '"' :: (escapeChars k.data ++ '"' :: ':' :: stringifyVal v) ++ X := by
                  cases fs with
                  | nil => exact ⟨[], by simp [stringifyFields]⟩
                  | cons g gs =>
                      exact ⟨',' :: stringifyFields (g :: gs), by simp [stringifyFields]⟩
                obtain ⟨X, hXeq⟩ := hX
                rw [hXeq, List.cons_append, List.cons_append,
                  parseVal_lbrace _ _ _ (by decide),
                  ← List.cons_append, ← List.cons_append, ← hXeq]
                have hsz : sizeF ((k, v) :: fs) ≤ fuel := by
                  simp only [sizeJ] at hv; omega
                rw [ihF ((k, v) :: fs) rest (by simp) hsz]
                rfl
      · -- elements
        intro es rest hne hs
        cases es with
        | nil => exact absurd rfl hne
        | cons v vs =>
            cases vs with
            | nil =>
                show parseElems (fuel + 1) (stringifyVal v ++ ']' :: rest) = _
                have h1 : parseVal fuel (stringifyVal v ++ ']' :: rest)
                    = some (v, ']' :: rest) := by
                  refine ihV v _ ?_ (by rfl)
                  simp only [sizeL] at hs; omega
                simp [parseElems, h1]
            | cons w ws =>
                show parseElems (fuel + 1)
                    ((stringifyVal v ++ ',' :: stringifyElems (w :: ws)) ++ ']' :: rest) = _
                rw [List.append_assoc, List.cons_append]
                have h1 : parseVal fuel
                    (stringifyVal v ++ ',' :: (stringifyElems (w :: ws) ++ ']' :: rest))
                    = some (v, ',' :: (stringifyElems (w :: ws) ++ ']' :: rest)) := by
                  refine ihV v _ ?_ (by rfl)
                  have h2 : sizeL (w :: ws) = sizeJ w + sizeL ws + 1 := by simp [sizeL]
                  simp only [sizeL] at hs ⊢; omega
                have h2 : parseElems fuel (stringifyElems (w :: ws) ++ ']' :: rest)
                    = some (w :: ws, rest) := by
                  refine ihE (w :: ws) rest (by simp) ?_
                  have h3 : sizeL (w :: ws) = sizeJ w + sizeL ws + 1 := by simp [sizeL]
                  have := sizeJ_pos v
                  simp only [sizeL] at hs; omega
                simp [parseElems, h1, h2]
      · -- fields
        intro fs rest hne hs
        cases fs with
        | nil => exact absurd rfl hne
        | cons f fs =>
            obtain ⟨k, v⟩ := f
            obtain ⟨d⟩ := k
            cases fs with
            | nil =>
                show parseFields (fuel + 1)
                    (('"' :: (escapeChars d ++ '"' :: ':' :: stringifyVal v)) ++ '}' :: rest)
                    = _
                rw [List.cons_append, List.append_assoc]
                have h1 : parseVal fuel (stringifyVal v ++ '}' :: rest)
                    = some (v, '}' :: rest) := by
                  refine ihV v _ ?_ (by rfl)
                  simp only [sizeF] at hs; omega
                simp [parseFields, parseStr_escape, h1]
            | cons g gs =>
                show parseFields (fuel + 1)
                    ((('"' :: (escapeChars d ++ '"' :: ':' :: stringifyVal v))
                      ++ ',' :: stringifyFields (g :: gs)) ++ '}' :: rest) = _
                rw [List.append_assoc, List.cons_append, List.cons_append,
                  List.append_assoc]
                have h1 : parseVal fuel
                    (stringifyVal v ++ ',' :: (stringifyFields (g :: gs) ++ '}' :: rest))
                    = some (v, ',' :: (stringifyFields (g :: gs) ++ '}' :: rest)) := by
                  refine ihV v _ ?_ (by rfl)
                  obtain ⟨k2, v2⟩ := g
                  have h3 : sizeF ((k2, v2) :: gs) = sizeJ v2 + sizeF gs + 1 := by
                    simp [sizeF]
                  simp only [sizeF] at hs; omega
                have h2 : parseFields fuel (stringifyFields (g :: gs) ++ '}' :: rest)
                    = some (g :: gs, rest) := by
                  refine ihF (g :: gs) rest (by simp) ?_
                  obtain ⟨k2, v2⟩ := g
                  have h3 : sizeF ((k2, v2) :: gs) = sizeJ v2 + sizeF gs + 1 := by
                    simp [sizeF]
                  have := sizeJ_pos v
                  simp only [sizeF] at hs; omega
                simp [parseFields, parseStr_escape, h1, h2]

/-- The modelled `JSON.parse` inverts the modelled `JSON.stringify`:
round-tripping any payload through its canonical JSON text recovers it
exactly. -/
theorem jsonParse_stringify (v : JsonVal) : jsonParse (jsonStringify v) = some v := by
  show (match parseVal ((String.mk (stringifyVal v)).data.length + 1)
          (String.mk (stringifyVal v)).data with
        | some (v, []) => some v
        | _ => none) = some v
  have hfuel : sizeJ v ≤ (stringifyVal v).length + 1 :=
    le_trans (sizeJ_le_len v) (by omega)
  have h := (parse_stringify_fuel ((stringifyVal v).length + 1)).1 v [] hfuel trivial
  rw [List.append_nil] at h
  show (match parseVal ((stringifyVal v).length + 1) (stringifyVal v) with
        | some (v, []) => some v
        | _ => none) = some v
  rw [h]

/-! ## Library adapters (`src/utils/libraries.ts`)

Each adapter wraps one external compression/serialization library.  The
external entry points are parameters (the spec treats the libraries as
black boxes with a fixed encode/decode contract); byte sequences
(`Uint8Array`) are `List ℕ`, and an external call that can throw returns
`Option`. -/

/-- `pakoEncode` from libraries.ts: `gzip(JSON.stringify(payload))`. -/
def pakoEncode (gzip : String → List Nat) (payload : JsonVal) : List Nat :=
  gzip (jsonStringify payload)

/-- `pakoDecode` from libraries.ts: `JSON.parse(ungzip(data, { to: "string" }))`. -/
def pakoDecode (ungzip : List Nat → Option String) (data : List Nat) : Option JsonVal :=
  (ungzip data).bind (fun decompressedStr => jsonParse decompressedStr)

/-- `cborEncode` from libraries.ts: `encodeCbor(payload)`. -/
def cborEncode (encodeCbor : JsonVal → List Nat) (payload : JsonVal) : List Nat :=
  encodeCbor payload

/-- `cborDecode` from libraries.ts: `decodeCbor(data)`. -/
def cborDecode (decodeCbor : List Nat → Option JsonVal) (data : List Nat) : Option JsonVal :=
  decodeCbor data

/-- `msgpackEncode` from libraries.ts: `encodeMsgPack(payload)`. -/
def msgpackEncode (encodeMsgPack : JsonVal → List Nat) (payload : JsonVal) : List Nat :=
  encodeMsgPack payload

/-- `msgpackDecode` from libraries.ts: `decodeMsgPack(new Uint8Array(data))` —
the fresh `Uint8Array` copy has the same contents as `data` (the heap-level
copy semantics is modelled separately by `msgpackDecodeStore`). -/
def msgpackDecode (decodeMsgPack : List Nat → Option JsonVal) (data : List Nat) :
    Option JsonVal :=
  let safeData := data.map id
  decodeMsgPack safeData

/-- `lzStringEncode` from libraries.ts:
`compressToUint8Array(JSON.stringify(payload))`. -/
def lzStringEncode (compressToUint8Array : String → List Nat) (payload : JsonVal) :
    List Nat :=
  compressToUint8Array (jsonStringify payload)

/-- `lzStringDecode` from libraries.ts:
`JSON.parse(decompressFromUint8Array(data))`; when the decompressor returns
`null`, `JSON.parse` coerces its argument to the text `"null"`. -/
def lzStringDecode (decompressFromUint8Array : List Nat → Option String)
    (data : List Nat) : Option JsonVal :=
  match decompressFromUint8Array data with
  | some decompressedStr => jsonParse decompressedStr
  | none => jsonParse "null"

/-- `fflateEncode` from libraries.ts:
`gzipSync(new TextEncoder().encode(JSON.stringify(payload)))`. -/
def fflateEncode (textEncoderEncode : String → List Nat) (gzipSync : List Nat → List Nat)
    (payload : JsonVal) : List Nat :=
  gzipSync (textEncoderEncode (jsonStringify payload))

/-- `fflateDecode` from libraries.ts:
`JSON.parse(new TextDecoder().decode(gunzipSync(data)))`. -/
def fflateDecode (gunzipSync : List Nat → Option (List Nat))
    (textDecoderDecode : List Nat → String) (data : List Nat) : Option JsonVal :=
  (gunzipSync data).bind (fun decompressed => jsonParse (textDecoderDecode decompressed))

/-- C1: for every adapter in the registry (FFLATE, Pako, LZString, CBOR and
MessagePack) and every payload `p`, decoding the adapter's own encoding of
`p` yields `p` back, provided each wrapped external library satisfies its
decompress-inverts-compress (resp. decode-inverts-encode) contract and the
text encoder/decoder pair round-trips. -/
theorem c1_adapters_roundtrip
    (textEncoderEncode : String → List Nat) (gzipSync : List Nat → List Nat)
    (gunzipSync : List Nat → Option (List Nat)) (textDecoderDecode : List Nat → String)
    (hfflate : ∀ b, gunzipSync (gzipSync b) = some b)
    (htext : ∀ s, textDecoderDecode (textEncoderEncode s) = s)
    (gzip : String → List Nat) (ungzip : List Nat → Option String)
    (hpako : ∀ s, ungzip (gzip s) = some s)
    (compressToUint8Array : String → List Nat)
    (decompressFromUint8Array : List Nat → Option String)
    (hlz : ∀ s, decompressFromUint8Array (compressToUint8Array s) = some s)
    (encodeCbor : JsonVal → List Nat) (decodeCbor : List Nat → Option JsonVal)
    (hcbor : ∀ v, decodeCbor (encodeCbor v) = some v)
    (encodeMsgPack : JsonVal → List Nat) (decodeMsgPack : List Nat → Option JsonVal)
    (hmsgpack : ∀ v, decodeMsgPack (encodeMsgPack v) = some v)
    (p : JsonVal) :
    fflateDecode gunzipSync textDecoderDecode
        (fflateEncode textEncoderEncode gzipSync p) = some p
    ∧ pakoDecode ungzip (pakoEncode gzip p) = some p
    ∧ lzStringDecode decompressFromUint8Array (lzStringEncode compressToUint8Array p)
        = some p
    ∧ cborDecode decodeCbor (cborEncode encodeCbor p) = some p
    ∧ msgpackDecode decodeMsgPack (msgpackEncode encodeMsgPack p) = some p := by
  refine ⟨?_, ?_, ?_, ?_, ?_⟩
  · simp [fflateDecode, fflateEncode, hfflate, htext, jsonParse_stringify]
  · simp [pakoDecode, pakoEncode, hpako, jsonParse_stringify]
  · simp [lzStringDecode, lzStringEncode, hlz, jsonParse_stringify]
  · simp [cborDecode, cborEncode, hcbor]
  · simp [msgpackDecode, msgpackEncode, hmsgpack]

/-- A concrete invertible text-to-bytes encoding (one code point per cell),
used to instantiate the external-library parameters in witnesses. -/
def codesOfStr (s : String) : List Nat := s.data.map Char.toNat

/-- Inverse of `codesOfStr`. -/
def strOfCodes (l : List Nat) : String := String.mk (l.map Char.ofNat)

theorem strOfCodes_codesOfStr (s : String) : strOfCodes (codesOfStr s) = s := by
  obtain ⟨d⟩ := s
  have h : Char.ofNat ∘ Char.toNat = id := funext Char.ofNat_toNat
  simp [strOfCodes, codesOfStr, List.map_map, h]

/-- A sample payload used by witnesses. -/
def c1Payload : JsonVal :=
  JsonVal.obj [("a", JsonVal.num 1), ("b", JsonVal.arr [JsonVal.bool true, JsonVal.str "x"])]

theorem c1_adapters_roundtrip_witness :
    fflateDecode (fun b => some b) strOfCodes
        (fflateEncode codesOfStr (fun b => b) c1Payload) = some c1Payload
    ∧ pakoDecode (fun l => some (strOfCodes l)) (pakoEncode codesOfStr c1Payload)
        = some c1Payload
    ∧ lzStringDecode (fun l => some (strOfCodes l)) (lzStringEncode codesOfStr c1Payload)
        = some c1Payload
    ∧ cborDecode (fun l => jsonParse (strOfCodes l))
        (cborEncode (fun v => codesOfStr (jsonStringify v)) c1Payload) = some c1Payload
    ∧ msgpackDecode (fun l => jsonParse (strOfCodes l))
        (msgpackEncode (fun v => codesOfStr (jsonStringify v)) c1Payload)
        = some c1Payload :=
  c1_adapters_roundtrip codesOfStr (fun b => b) (fun b => some b) strOfCodes
    (fun _ => rfl) strOfCodes_codesOfStr
    codesOfStr (fun l => some (strOfCodes l)) (fun s => by simp [strOfCodes_codesOfStr])
    codesOfStr (fun l => some (strOfCodes l)) (fun s => by simp [strOfCodes_codesOfStr])
    (fun v => codesOfStr (jsonStringify v)) (fun l => jsonParse (strOfCodes l))
    (fun v => by simp [strOfCodes_codesOfStr, jsonParse_stringify])
    (fun v => codesOfStr (jsonStringify v)) (fun l => jsonParse (strOfCodes l))
    (fun v => by simp [strOfCodes_codesOfStr, jsonParse_stringify])
    c1Payload

namespace UtilsTs

/-- `lzStringDecode` from `src/utils/utils.ts` (the variant with the `||`
fallback): `JSON.parse(decompressedStr || '{}')` — the `||` substitutes the
text `"{}"` when the decompressor returns `null` or the empty string (both
falsy). -/
def lzStringDecode (decompressFromUint8Array : List Nat → Option String)
    (data : List Nat) : Option JsonVal :=
  jsonParse (match decompressFromUint8Array data with
             | some s => if s = "" then "\x7b\x7d" else s
             | none => "\x7b\x7d")

end UtilsTs

/-- C9: whenever LZ-String decompression yields no string (`null` or the
empty string), the utils.ts `lzStringDecode` returns the empty object `{}`
instead of raising an error. -/
theorem c9_lzString_empty_fallback (decompressFromUint8Array : List Nat → Option String)
    (data : List Nat)
    (h : decompressFromUint8Array data = none ∨ decompressFromUint8Array data = some "") :
    UtilsTs.lzStringDecode decompressFromUint8Array data = some (JsonVal.obj []) := by
  have hparse : jsonParse "\x7b\x7d" = some (JsonVal.obj []) := rfl
  rcases h with h | h <;> simp [UtilsTs.lzStringDecode, h, hparse]

theorem c9_lzString_empty_fallback_witness :
    ((fun _ : List Nat => (none : Option String)) [] = none
      ∨ (fun _ : List Nat => (none : Option String)) [] = some "")
    ∧ UtilsTs.lzStringDecode (fun _ => none) [] = some (JsonVal.obj []) :=
  ⟨Or.inl rfl, c9_lzString_empty_fallback (fun _ => none) [] (Or.inl rfl)⟩

/-- Pointwise update of a buffer store (buffer identity ↦ contents). -/
def updateStore (σ : Nat → List Nat) (i : Nat) (v : List Nat) : Nat → List Nat :=
  fun j => if j = i then v else σ j

/-- Heap-level model of `msgpackDecode` from libraries.ts:
`new Uint8Array(data)` allocates a fresh buffer `safeData` holding a copy of
`data`'s contents, and the external decoder reads — and may overwrite — the
buffer it is handed (`safeData`), returning the decoded value; the store maps
buffer identities to contents. -/
def msgpackDecodeStore (decodeMsgPack : List Nat → JsonVal × List Nat)
    (σ : Nat → List Nat) (dataRef freshRef : Nat) : JsonVal × (Nat → List Nat) :=
  let σ1 := updateStore σ freshRef (σ dataRef)
  let r := decodeMsgPack (σ1 freshRef)
  (r.1, updateStore σ1 freshRef r.2)

/-- C10: `msgpackDecode` never mutates its input buffer — after the call the
contents of `data` equal its contents before, whatever the external decoder
does to the buffer it is handed, because that buffer is a fresh copy. -/
theorem c10_msgpack_no_mutation (decodeMsgPack : List Nat → JsonVal × List Nat)
    (σ : Nat → List Nat) (dataRef freshRef : Nat) (h : freshRef ≠ dataRef) :
    (msgpackDecodeStore decodeMsgPack σ dataRef freshRef).2 dataRef = σ dataRef := by
  show updateStore (updateStore σ freshRef (σ dataRef)) freshRef _ dataRef = σ dataRef
  unfold updateStore
  rw [if_neg (Ne.symm h), if_neg (Ne.symm h)]

theorem c10_msgpack_no_mutation_witness :
    (1 : Nat) ≠ 0
    ∧ (msgpackDecodeStore (fun _ => (JsonVal.null, [])) (fun _ => [1, 2, 3]) 0 1).2 0
        = [1, 2, 3] :=
  ⟨by decide, c10_msgpack_no_mutation (fun _ => (JsonVal.null, [])) (fun _ => [1, 2, 3])
    0 1 (by decide)⟩

/-! ## Size/ratio utilities (`src/utils/utils.ts` and spec §4.1)

JavaScript numbers are modelled as `ℚ`.  `getSizeInKB`, `getFormattedSize`
and `calculateCompressionRatio` are imported by `App.tsx` from the utils
module but are absent from the available sources, so they are modelled from
the spec. -/

/-- Modelled from the spec/JS runtime: `Number.prototype.toFixed(1)` on the
rational model of JS numbers — one decimal digit, rounding to nearest, ties
away from zero. -/
def toFixed1 (q : ℚ) : String :=
  if q < 0 then
    String.mk ('-' :: (natToChars ((⌊-q * 10 + 1 / 2⌋).toNat / 10)
      ++ '.' :: [digitChar ((⌊-q * 10 + 1 / 2⌋).toNat % 10)]))
  else
    String.mk (natToChars ((⌊q * 10 + 1 / 2⌋).toNat / 10)
      ++ '.' :: [digitChar ((⌊q * 10 + 1 / 2⌋).toNat % 10)])

/-- The input domain of `getByteSizeKB`: a text string, a raw byte sequence
(`Uint8Array`) or a generic object. -/
inductive ByteInput where
  | str (s : String) : ByteInput
  | bytes (b : List Nat) : ByteInput
  | obj (v : JsonVal) : ByteInput

/-- The byte-selection step of `getByteSizeKB` from `src/utils/utils.ts`,
returning the byte count: a string is UTF-8 encoded with the external
`TextEncoder`; a byte sequence is taken as is, its length read off directly;
any other object is serialized with `JSON.stringify` first and then
encoded. -/
def byteLen (textEncoderEncode : String → List Nat) : ByteInput → Nat
  | .str s => (textEncoderEncode s).length
  | .bytes b => b.length
  | .obj v => (textEncoderEncode (jsonStringify v)).length

/-- `getByteSizeKB` from `src/utils/utils.ts`: the byte count displayed in
KB, or in MB from 1 MB up, to one decimal. -/
def getByteSizeKB (textEncoderEncode : String → List Nat) (input : ByteInput) : String :=
  let sizeInKB : ℚ := (byteLen textEncoderEncode input : ℚ) / 1024
  let sizeInMB : ℚ := sizeInKB / 1024
  if 1 ≤ sizeInMB then toFixed1 sizeInMB ++ " MB"
  else toFixed1 sizeInKB ++ " KB"

/-- Modelled from the spec: `getSizeInKB` (imported by `App.tsx`, absent from
the available sources) — the byte size of the input divided by 1024, using
§4.1's byte-size rule. -/
def getSizeInKB (textEncoderEncode : String → List Nat) (input : ByteInput) : ℚ :=
  (byteLen textEncoderEncode input : ℚ) / 1024

/-- Modelled from the spec: `getFormattedSize` (imported by `App.tsx`, absent
from the available sources) — §4.1 `formatSize`: a kibibyte count below 1024
renders as `"<value to 1 decimal> KB"`, otherwise as mebibytes `"… MB"`. -/
def getFormattedSize (kb : ℚ) : String :=
  if kb < 1024 then toFixed1 kb ++ " KB" else toFixed1 (kb / 1024) ++ " MB"

/-- Modelled from the spec: `calculateCompressionRatio` (imported by
`App.tsx`, absent from the available sources) — §4.1: original payload size
in KB divided by compressed size in KB, returning `0` when the compressed
size is exactly `0`. -/
def calculateCompressionRatio (textEncoderEncode : String → List Nat)
    (originalPayload : JsonVal) (compressedSizeInKB : ℚ) : ℚ :=
  if compressedSizeInKB = 0 then 0
  else getSizeInKB textEncoderEncode (ByteInput.obj originalPayload) / compressedSizeInKB

/-- C8: for every raw byte sequence `b`, the byte size computed for `b` is
exactly the length of `b` — a non-negative integer, with no encoding step
applied (independent of the text encoder). -/
theorem c8_byteSize_bytes_length (textEncoderEncode : String → List Nat)
    (b : List Nat) : byteLen textEncoderEncode (ByteInput.bytes b) = b.length := rfl

/-- C6: for every payload `p`, the compression ratio with compressed size
exactly `0` is `0` — the division by zero is guarded, no error is
signalled. -/
theorem c6_compressionRatio_zero_guard (textEncoderEncode : String → List Nat)
    (p : JsonVal) : calculateCompressionRatio textEncoderEncode p 0 = 0 := by
  simp [calculateCompressionRatio]

/-! ## Benchmark orchestrator (`src/App.tsx`, `startComparison`)

The loop body's external effects — the adapter's encode/decode calls and the
`performance.now()` clock — are abstracted into a per-library outcome: `none`
models an exception thrown during encode or decode, `some` carries the
encoded bytes and the two measured wall-clock durations. -/

/-- One entry of the library registry from `src/utils/libraries.ts`
(`compressionLibraries`). -/
structure CompressionLib where
  name : String
  link : String
deriving DecidableEq, Repr

/-- `compressionLibraries` from `src/utils/libraries.ts`: the fixed, ordered
registry of the five library descriptors. -/
def compressionLibraries : List CompressionLib :=
  [⟨"FFLATE", "https://www.npmjs.com/package/fflate"⟩,
   ⟨"Pako", "https://www.npmjs.com/package/pako"⟩,
   ⟨"LZString", "https://www.npmjs.com/package/lz-string"⟩,
   ⟨"CBOR", "https://www.npmjs.com/package/cbor2"⟩,
   ⟨"MessagePack", "https://www.npmjs.com/package/messagepack"⟩]

/-- `TBenchmarkResult` from `src/App.tsx`: one per-adapter row of the results
table. -/
structure TBenchmarkResult where
  name : String
  link : String
  originalSize : String
  compressedSize : String
  encodeTime : ℚ
  decodeTime : ℚ
  totalTime : ℚ
  compressionRatio : ℚ
  sizeReduction : ℚ
deriving DecidableEq, Repr

/-- The environment-determined part of one adapter's run: the bytes its
encode produced and the two elapsed wall-clock times. -/
structure AdapterOutcome where
  encoded : List Nat
  encodeTime : ℚ
  decodeTime : ℚ
deriving DecidableEq, Repr

/-- The result row the `catch` branch of `startComparison` pushes: every
numeric field `0`, both size fields the literal `"0 KB"`. -/
def zeroResult (name link : String) : TBenchmarkResult :=
  { name := name, link := link, originalSize := "0 KB", compressedSize := "0 KB",
    encodeTime := 0, decodeTime := 0, totalTime := 0,
    compressionRatio := 0, sizeReduction := 0 }

/-- One iteration of the `startComparison` loop from `src/App.tsx`
(lines 155–203): on success, sizes, ratio and reduction are computed from
the payload and the encoded bytes; on any exception, the all-zero row. -/
def benchOne (textEncoderEncode : String → List Nat) (payload : JsonVal)
    (name link : String) : Option AdapterOutcome → TBenchmarkResult
  | some o =>
      let encodeTime := o.encodeTime
      let decodeTime := o.decodeTime
      let totalTime := encodeTime + decodeTime
      let originalSize := getSizeInKB textEncoderEncode (ByteInput.obj payload)
      let compressedSize := getSizeInKB textEncoderEncode (ByteInput.bytes o.encoded)
      let compressionRatio := calculateCompressionRatio textEncoderEncode payload compressedSize
      let sizeReduction := (1 - compressedSize / originalSize) * 100
      { name := name, link := link,
        originalSize := getFormattedSize originalSize,
        compressedSize := getFormattedSize compressedSize,
        encodeTime := encodeTime, decodeTime := decodeTime, totalTime := totalTime,
        compressionRatio := compressionRatio, sizeReduction := sizeReduction }
  | none => zeroResult name link

/-- The `startComparison` loop from `src/App.tsx`: one result row per
registered library, in registration order, plus the `console.error` log
entries emitted by the `catch` branch. -/
def startComparison (textEncoderEncode : String → List Nat) (payload : JsonVal)
    (behave : String → Option AdapterOutcome) : List TBenchmarkResult × List String :=
  (compressionLibraries.map
    (fun lib => benchOne textEncoderEncode payload lib.name lib.link (behave lib.name)),
   compressionLibraries.filterMap
    (fun lib =>
      if behave lib.name = none then some ("Error benchmarking " ++ lib.name)
      else none))

theorem benchOne_name (textEncoderEncode : String → List Nat) (payload : JsonVal)
    (name link : String) (o : Option AdapterOutcome) :
    (benchOne textEncoderEncode payload name link o).name = name := by
  cases o <;> rfl

/-- C2: every run produces exactly as many benchmark results as there are
registered library descriptors, carrying the descriptors' names in
registration order, regardless of how many adapters fail. -/
theorem c2_results_count_order (textEncoderEncode : String → List Nat)
    (payload : JsonVal) (behave : String → Option AdapterOutcome) :
    (startComparison textEncoderEncode payload behave).1.map TBenchmarkResult.name
      = compressionLibraries.map CompressionLib.name
    ∧ (startComparison textEncoderEncode payload behave).1.length
      = compressionLibraries.length := by
  constructor
  · simp [startComparison, List.map_map, Function.comp, benchOne_name]
  · simp [startComparison]

/-- C3: when an adapter's encode or decode throws, the orchestrator logs the
failure with that adapter's id, appends a result whose numeric fields are all
zero and whose size fields are `"0 KB"`, and every other adapter's row is
exactly what its own outcome dictates — the failure never disturbs the rest
of the run. -/
theorem c3_failure_isolated (textEncoderEncode : String → List Nat)
    (payload : JsonVal) (behave : String → Option AdapterOutcome) (i : Nat)
    (hi : i < compressionLibraries.length)
    (hj : i < (startComparison textEncoderEncode payload behave).1.length)
    (hfail : behave (compressionLibraries.get ⟨i, hi⟩).name = none) :
    (startComparison textEncoderEncode payload behave).1.get ⟨i, hj⟩
      = zeroResult (compressionLibraries.get ⟨i, hi⟩).name
          (compressionLibraries.get ⟨i, hi⟩).link
    ∧ ("Error benchmarking " ++ (compressionLibraries.get ⟨i, hi⟩).name)
        ∈ (startComparison textEncoderEncode payload behave).2
    ∧ ∀ j (hj2 : j < compressionLibraries.length)
        (hk : j < (startComparison textEncoderEncode payload behave).1.length),
        (startComparison textEncoderEncode payload behave).1.get ⟨j, hk⟩
          = benchOne textEncoderEncode payload (compressionLibraries.get ⟨j, hj2⟩).name
              (compressionLibraries.get ⟨j, hj2⟩).link
              (behave (compressionLibraries.get ⟨j, hj2⟩).name) := by
  refine ⟨?_, ?_, ?_⟩
  · simp only [startComparison, List.get_map]
    rw [hfail]
    rfl
  · simp only [startComparison]
    refine List.mem_filterMap.mpr ⟨compressionLibraries.get ⟨i, hi⟩, List.get_mem _ _ _, ?_⟩
    rw [hfail]
    simp
  · intro j hj2 hk
    simp only [startComparison, List.get_map]

/-! ## Best-score fold (`src/App.tsx` lines 207–223)

The reduce seeds minimums with `Infinity` and maximums with `0`; the
compressed-size column is compared through `parseFloat` on the formatted
strings.  JS numbers here are `WithTop ℚ` (`⊤` is `Infinity`); a `parseFloat`
result of `none` models `NaN`, and any comparison against it is false. -/

/-- Fraction digits after the decimal point, most significant first. -/
def parseFracAux : ℚ → ℚ → List Char → ℚ × List Char
  | acc, _, [] => (acc, [])
  | acc, scale, c :: cs =>
      if c.isDigit then parseFracAux (acc + ((c.toNat - 48 : Nat) : ℚ) * scale) (scale / 10) cs
      else (acc, c :: cs)

/-- An unsigned decimal numeral with optional fraction, ignoring any
trailing characters, as `parseFloat` reads it. -/
def parseUnsigned (cs : List Char) : Option ℚ :=
  match cs with
  | c :: cs1 =>
      if c.isDigit then
        let p := parseDigitsAux 0 (c :: cs1)
        match p.2 with
        | '.' :: cs2 => some ((p.1 : ℚ) + (parseFracAux 0 (1 / 10) cs2).1)
        | _ => some ((p.1 : ℚ))
      else none
  | [] => none

/-- Whether the input starts with the literal `Infinity`. -/
def isInfLit : List Char → Bool
  | 'I' :: 'n' :: 'f' :: 'i' :: 'n' :: 'i' :: 't' :: 'y' :: _ => true
  | _ => false

/-- Modelled from the spec/JS runtime: `parseFloat` on the rational model,
covering the strings the best-score reduce feeds it (`"Infinity"`, formatted
sizes, `"0 KB"`); `none` models `NaN`. -/
def parseFloatNum (s : String) : Option (WithTop ℚ) :=
  if isInfLit s.data then some ⊤
  else
    match s.data with
    | '-' :: cs => (parseUnsigned cs).map (fun q => ((-q : ℚ) : WithTop ℚ))
    | cs => (parseUnsigned cs).map (fun q => ((q : ℚ) : WithTop ℚ))

/-- The JS `<` on two `parseFloat` results: any comparison against `NaN` is
false. -/
def jsLt : Option (WithTop ℚ) → Option (WithTop ℚ) → Bool
  | some x, some y => decide (x < y)
  | _, _ => false

theorem jsLt_irrefl (a : Option (WithTop ℚ)) : jsLt a a = false := by
  cases a <;> simp [jsLt]

theorem jsLt_asymm {a b : Option (WithTop ℚ)} (h : jsLt a b = true) : jsLt b a = false := by
  cases a with
  | none => simp [jsLt]
  | some x =>
      cases b with
      | none => simp [jsLt] at h
      | some y =>
          simp only [jsLt, decide_eq_true_eq] at h
          simp only [jsLt, decide_eq_false_iff_not]
          exact lt_asymm h

theorem jsLt_trans {a b c : Option (WithTop ℚ)} (h1 : jsLt a b = true)
    (h2 : jsLt b c = true) : jsLt a c = true := by
  cases a <;> cases b <;> cases c <;> simp_all [jsLt]
  exact lt_trans h1 h2

/-- `TBestScore` from `src/App.tsx`. -/
structure TBestScore where
  compressedSize : String
  encodeTime : WithTop ℚ
  decodeTime : WithTop ℚ
  totalTime : WithTop ℚ
  compressionRatio : ℚ
  sizeReduction : ℚ
deriving DecidableEq, Repr

/-- The seed of the best-score reduce: `'Infinity'` / `Infinity` for the
minimums, `0` for the maximums. -/
def bestScoreSeed : TBestScore :=
  { compressedSize := "Infinity", encodeTime := ⊤, decodeTime := ⊤, totalTime := ⊤,
    compressionRatio := 0, sizeReduction := 0 }

/-- One step of the `results.reduce` from `src/App.tsx` lines 207–223:
strict-`<` updates for the minimums (`parseFloat` comparison for the
compressed-size strings), strict-`>` updates for the maximums. -/
def bestScoreStep (best : TBestScore) (current : TBenchmarkResult) : TBestScore :=
  { compressedSize :=
      if jsLt (parseFloatNum current.compressedSize) (parseFloatNum best.compressedSize)
      then current.compressedSize else best.compressedSize,
    encodeTime :=
      if (current.encodeTime : WithTop ℚ) < best.encodeTime
      then (current.encodeTime : WithTop ℚ) else best.encodeTime,
    decodeTime :=
      if (current.decodeTime : WithTop ℚ) < best.decodeTime
      then (current.decodeTime : WithTop ℚ) else best.decodeTime,
    totalTime :=
      if (current.totalTime : WithTop ℚ) < best.totalTime
      then (current.totalTime : WithTop ℚ) else best.totalTime,
    compressionRatio :=
      if best.compressionRatio < current.compressionRatio
      then current.compressionRatio else best.compressionRatio,
    sizeReduction :=
      if best.sizeReduction < current.sizeReduction
      then current.sizeReduction else best.sizeReduction }

/-- `newBestScore` from `src/App.tsx`: the seeded reduce over the run's
results (JS `Array.prototype.reduce` is a left fold). -/
def newBestScore (results : List TBenchmarkResult) : TBestScore :=
  results.foldl bestScoreStep bestScoreSeed

theorem foldl_bestScore_encodeTime (rs : List TBenchmarkResult) : ∀ b : TBestScore,
    (rs.foldl bestScoreStep b).encodeTime
      = rs.foldl (fun a r => if (r.encodeTime : WithTop ℚ) < a
          then (r.encodeTime : WithTop ℚ) else a) b.encodeTime := by
  induction rs with
  | nil => intro b; rfl
  | cons r rs ih => intro b; simp only [List.foldl_cons]; rw [ih]; rfl

theorem foldl_bestScore_decodeTime (rs : List TBenchmarkResult) : ∀ b : TBestScore,
    (rs.foldl bestScoreStep b).decodeTime
      = rs.foldl (fun a r => if (r.decodeTime : WithTop ℚ) < a
          then (r.decodeTime : WithTop ℚ) else a) b.decodeTime := by
  induction rs with
  | nil => intro b; rfl
  | cons r rs ih => intro b; simp only [List.foldl_cons]; rw [ih]; rfl

theorem foldl_bestScore_totalTime (rs : List TBenchmarkResult) : ∀ b : TBestScore,
    (rs.foldl bestScoreStep b).totalTime
      = rs.foldl (fun a r => if (r.totalTime : WithTop ℚ) < a
          then (r.totalTime : WithTop ℚ) else a) b.totalTime := by
  induction rs with
  | nil => intro b; rfl
  | cons r rs ih => intro b; simp only [List.foldl_cons]; rw [ih]; rfl

theorem foldl_bestScore_ratio (rs : List TBenchmarkResult) : ∀ b : TBestScore,
    (rs.foldl bestScoreStep b).compressionRatio
      = rs.foldl (fun a r => if a < r.compressionRatio
          then r.compressionRatio else a) b.compressionRatio := by
  induction rs with
  | nil => intro b; rfl
  | cons r rs ih => intro b; simp only [List.foldl_cons]; rw [ih]; rfl

theorem foldl_bestScore_reduction (rs : List TBenchmarkResult) : ∀ b : TBestScore,
    (rs.foldl bestScoreStep b).sizeReduction
      = rs.foldl (fun a r => if a < r.sizeReduction
          then r.sizeReduction else a) b.sizeReduction := by
  induction rs with
  | nil => intro b; rfl
  | cons r rs ih => intro b; simp only [List.foldl_cons]; rw [ih]; rfl

theorem foldl_bestScore_compressedSize (rs : List TBenchmarkResult) : ∀ b : TBestScore,
    (rs.foldl bestScoreStep b).compressedSize
      = rs.foldl (fun a r => if jsLt (parseFloatNum r.compressedSize) (parseFloatNum a)
          then r.compressedSize else a) b.compressedSize := by
  induction rs with
  | nil => intro b; rfl
  | cons r rs ih => intro b; simp only [List.foldl_cons]; rw [ih]; rfl

theorem foldl_min_spec {α β : Type _} [LinearOrder β] (f : α → β) (l : List α) :
    ∀ b : β,
    ((l.foldl (fun a x => if f x < a then f x else a) b) = b
      ∨ ∃ x ∈ l, (l.foldl (fun a x => if f x < a then f x else a) b) = f x)
    ∧ (l.foldl (fun a x => if f x < a then f x else a) b) ≤ b
    ∧ ∀ x ∈ l, (l.foldl (fun a x => if f x < a then f x else a) b) ≤ f x := by
  induction l with
  | nil => intro b; simp
  | cons y ys ih =>
      intro b
      simp only [List.foldl_cons]
      by_cases h : f y < b
      · rw [if_pos h]
        obtain ⟨h1, h2, h3⟩ := ih (f y)
        refine ⟨?_, le_trans h2 (le_of_lt h), ?_⟩
        · rcases h1 with h1 | ⟨x, hx, hfx⟩
          · exact Or.inr ⟨y, List.mem_cons_self y ys, h1⟩
          · exact Or.inr ⟨x, List.mem_cons_of_mem _ hx, hfx⟩
        · intro x hx
          rcases List.mem_cons.mp hx with rfl | hx
          · exact h2
          · exact h3 x hx
      · rw [if_neg h]
        obtain ⟨h1, h2, h3⟩ := ih b
        refine ⟨?_, h2, ?_⟩
        · rcases h1 with h1 | ⟨x, hx, hfx⟩
          · exact Or.inl h1
          · exact Or.inr ⟨x, List.mem_cons_of_mem _ hx, hfx⟩
        · intro x hx
          rcases List.mem_cons.mp hx with rfl | hx
          · exact le_trans h2 (not_lt.mp h)
          · exact h3 x hx

theorem foldl_max_spec {α β : Type _} [LinearOrder β] (f : α → β) (l : List α) :
    ∀ b : β,
    ((l.foldl (fun a x => if a < f x then f x else a) b) = b
      ∨ ∃ x ∈ l, (l.foldl (fun a x => if a < f x then f x else a) b) = f x)
    ∧ b ≤ (l.foldl (fun a x => if a < f x then f x else a) b)
    ∧ ∀ x ∈ l, f x ≤ (l.foldl (fun a x => if a < f x then f x else a) b) := by
  induction l with
  | nil => intro b; simp
  | cons y ys ih =>
      intro b
      simp only [List.foldl_cons]
      by_cases h : b < f y
      · rw [if_pos h]
        obtain ⟨h1, h2, h3⟩ := ih (f y)
        refine ⟨?_, le_trans (le_of_lt h) h2, ?_⟩
        · rcases h1 with h1 | ⟨x, hx, hfx⟩
          · exact Or.inr ⟨y, List.mem_cons_self y ys, h1⟩
          · exact Or.inr ⟨x, List.mem_cons_of_mem _ hx, hfx⟩
        · intro x hx
          rcases List.mem_cons.mp hx with rfl | hx
          · exact h2
          · exact h3 x hx
      · rw [if_neg h]
        obtain ⟨h1, h2, h3⟩ := ih b
        refine ⟨?_, h2, ?_⟩
        · rcases h1 with h1 | ⟨x, hx, hfx⟩
          · exact Or.inl h1
          · exact Or.inr ⟨x, List.mem_cons_of_mem _ hx, hfx⟩
        · intro x hx
          rcases List.mem_cons.mp hx with rfl | hx
          · exact le_trans (not_lt.mp h) h2
          · exact h3 x hx

theorem foldl_minBy_spec (l : List TBenchmarkResult) : ∀ b : String,
    ((l.foldl (fun a r => if jsLt (parseFloatNum r.compressedSize) (parseFloatNum a)
        then r.compressedSize else a) b) = b
      ∨ ∃ r ∈ l, (l.foldl (fun a r => if jsLt (parseFloatNum r.compressedSize) (parseFloatNum a)
        then r.compressedSize else a) b) = r.compressedSize)
    ∧ ((l.foldl (fun a r => if jsLt (parseFloatNum r.compressedSize) (parseFloatNum a)
        then r.compressedSize else a) b) = b
      ∨ jsLt (parseFloatNum (l.foldl (fun a r =>
          if jsLt (parseFloatNum r.compressedSize) (parseFloatNum a)
          then r.compressedSize else a) b)) (parseFloatNum b) = true)
    ∧ ∀ r ∈ l, jsLt (parseFloatNum r.compressedSize)
        (parseFloatNum (l.foldl (fun a r =>
          if jsLt (parseFloatNum r.compressedSize) (parseFloatNum a)
          then r.compressedSize else a) b)) = false := by
  induction l with
  | nil => intro b; simp [jsLt_irrefl]
  | cons y ys ih =>
      intro b
      simp only [List.foldl_cons]
      by_cases h : jsLt (parseFloatNum y.compressedSize) (parseFloatNum b) = true
      · rw [if_pos h]
        obtain ⟨h1, h2, h3⟩ := ih y.compressedSize
        refine ⟨?_, ?_, ?_⟩
        · rcases h1 with h1 | ⟨r, hr, hrr⟩
          · exact Or.inr ⟨y, List.mem_cons_self y ys, h1⟩
          · exact Or.inr ⟨r, List.mem_cons_of_mem _ hr, hrr⟩
        · rcases h2 with h2 | h2
          · rw [h2]; exact Or.inr h
          · exact Or.inr (jsLt_trans h2 h)
        · intro r hr
          rcases List.mem_cons.mp hr with rfl | hr
          · rcases h2 with h2 | h2
            · rw [h2]; exact jsLt_irrefl _
            · exact jsLt_asymm h2
          · exact h3 r hr
      · rw [if_neg h]
        have hb : jsLt (parseFloatNum y.compressedSize) (parseFloatNum b) = false :=
          Bool.eq_false_iff.mpr h
        obtain ⟨h1, h2, h3⟩ := ih b
        refine ⟨?_, h2, ?_⟩
        · rcases h1 with h1 | ⟨r, hr, hrr⟩
          · exact Or.inl h1
          · exact Or.inr ⟨r, List.mem_cons_of_mem _ hr, hrr⟩
        · intro r hr
          rcases List.mem_cons.mp hr with rfl | hr
          · rcases h2 with h2 | h2
            · rw [h2]; exact hb
            · rcases Bool.eq_false_or_eq_true
                (jsLt (parseFloatNum r.compressedSize)
                  (parseFloatNum (ys.foldl (fun a r =>
                    if jsLt (parseFloatNum r.compressedSize) (parseFloatNum a)
                    then r.compressedSize else a) b))) with hh | hh
              · exact absurd (jsLt_trans hh h2) (by rw [hb]; simp)
              · exact hh
          · exact h3 r hr

theorem isInfLit_digit {c : Char} (l : List Char) (h : c.isDigit = true) :
    isInfLit (c :: l) = false := by
  rw [isInfLit.eq_def]
  split
  · rename_i heq
    simp only [List.cons.injEq] at heq
    obtain ⟨rfl, -⟩ := heq
    exact absurd h (by decide)
  · rfl

theorem parseFloatNum_mk_digit (c : Char) (l : List Char) (h : c.isDigit = true) :
    parseFloatNum (String.mk (c :: l))
      = (parseUnsigned (c :: l)).map (fun q => ((q : ℚ) : WithTop ℚ)) := by
  unfold parseFloatNum
  rw [show (String.mk (c :: l)).data = c :: l from rfl, isInfLit_digit l h]
  simp only [Bool.false_eq_true, if_false]
  split
  · rename_i heq
    simp only [List.cons.injEq] at heq
    obtain ⟨rfl, -⟩ := heq
    exact absurd h (by decide)
  · rfl

theorem parseUnsigned_cons (c : Char) (cs1 : List Char) :
    parseUnsigned (c :: cs1)
      = if c.isDigit = true then
          match (parseDigitsAux 0 (c :: cs1)).2 with
          | '.' :: cs2 =>
              some (((parseDigitsAux 0 (c :: cs1)).1 : ℚ) + (parseFracAux 0 (1 / 10) cs2).1)
          | _ => some (((parseDigitsAux 0 (c :: cs1)).1 : ℚ))
        else none := rfl

theorem parseFracAux_cons (acc scale : ℚ) (c : Char) (cs : List Char) :
    parseFracAux acc scale (c :: cs)
      = if c.isDigit = true then
          parseFracAux (acc + ((c.toNat - 48 : Nat) : ℚ) * scale) (scale / 10) cs
        else (acc, c :: cs) := rfl

theorem parseUnsigned_fixed (w d : Nat) (hd : d < 10) (t : List Char) :
    parseUnsigned (natToChars w ++ '.' :: digitChar d :: ' ' :: t)
      = some ((w : ℚ) + (d : ℚ) / 10) := by
  obtain ⟨c, t0, hct, hdig⟩ := natToChars_head w
  rw [hct, List.cons_append, parseUnsigned_cons, if_pos hdig, ← List.cons_append, ← hct,
    parseDigits_roundtrip w ('.' :: digitChar d :: ' ' :: t) (by exact rfl)]
  show some ((w : ℚ) + (parseFracAux 0 (1 / 10) (digitChar d :: ' ' :: t)).1)
      = some ((w : ℚ) + (d : ℚ) / 10)
  rw [parseFracAux_cons, if_pos (digitChar_isDigit hd), digitChar_toNat hd,
    parseFracAux_cons, if_neg (by decide)]
  have h48 : (48 + d - 48 : Nat) = d := by omega
  rw [h48]
  congr 1
  ring

theorem parseFloatNum_toFixed1_tail (q : ℚ) (hq : 0 ≤ q) (t : List Char) :
    ∃ x : ℚ, parseFloatNum (String.mk ((toFixed1 q).data ++ ' ' :: t))
      = some ((x : ℚ) : WithTop ℚ) := by
  unfold toFixed1
  rw [if_neg (not_lt.mpr hq)]
  obtain ⟨c, t0, hct, hdig⟩ := natToChars_head ((⌊q * 10 + 1 / 2⌋).toNat / 10)
  refine ⟨((⌊q * 10 + 1 / 2⌋).toNat / 10 : Nat) + ((⌊q * 10 + 1 / 2⌋).toNat % 10 : Nat) / 10, ?_⟩
  have hdata : (String.mk (natToChars ((⌊q * 10 + 1 / 2⌋).toNat / 10)
      ++ '.' :: [digitChar ((⌊q * 10 + 1 / 2⌋).toNat % 10)])).data
      ++ ' ' :: t
      = natToChars ((⌊q * 10 + 1 / 2⌋).toNat / 10)
        ++ '.' :: digitChar ((⌊q * 10 + 1 / 2⌋).toNat % 10) :: ' ' :: t := by
    simp
  rw [hdata, hct, List.cons_append, parseFloatNum_mk_digit c _ hdig,
    ← List.cons_append, ← hct,
    parseUnsigned_fixed _ _ (Nat.mod_lt _ (by omega)) t]
  rfl

theorem parseFloatNum_getFormattedSize (kb : ℚ) (hkb : 0 ≤ kb) :
    ∃ x : ℚ, parseFloatNum (getFormattedSize kb) = some ((x : ℚ) : WithTop ℚ) := by
  unfold getFormattedSize
  by_cases h : kb < 1024
  · rw [if_pos h]
    have hx := parseFloatNum_toFixed1_tail kb hkb ['K', 'B']
    rwa [show String.mk ((toFixed1 kb).data ++ ' ' :: ['K', 'B'])
      = toFixed1 kb ++ " KB" from rfl] at hx
  · rw [if_neg h]
    have hq : (0 : ℚ) ≤ kb / 1024 := by positivity
    have hx := parseFloatNum_toFixed1_tail (kb / 1024) hq ['M', 'B']
    rwa [show String.mk ((toFixed1 (kb / 1024)).data ++ ' ' :: ['M', 'B'])
      = toFixed1 (kb / 1024) ++ " MB" from rfl] at hx

theorem getSizeInKB_nonneg (textEncoderEncode : String → List Nat) (input : ByteInput) :
    0 ≤ getSizeInKB textEncoderEncode input := by
  unfold getSizeInKB
  positivity

theorem parseFloatNum_zeroKB : parseFloatNum "0 KB" = some ((0 : ℚ) : WithTop ℚ) := rfl

theorem benchOne_compressedSize_finite (textEncoderEncode : String → List Nat)
    (payload : JsonVal) (name link : String) (o : Option AdapterOutcome) :
    ∃ x : ℚ, parseFloatNum ((benchOne textEncoderEncode payload name link o).compressedSize)
      = some ((x : ℚ) : WithTop ℚ) := by
  cases o with
  | none => exact ⟨0, parseFloatNum_zeroKB⟩
  | some o =>
      exact parseFloatNum_getFormattedSize _
        (getSizeInKB_nonneg textEncoderEncode (ByteInput.bytes o.encoded))

/-- C4 (amended): after a run over the (non-empty) registry, the best-score
summary relates to the run's results as the seeded reduce dictates — each
time minimum equals some result's value and lower-bounds all of them (the
`Infinity` seeds never survive); the compressed-size field is one of the
results' formatted strings and no result's string parses strictly below it
(`parseFloat` compares only the numeric prefix, ignoring the KB/MB unit);
and the two maximum fields are maxima clamped below at their `0` seed: each
equals `0` or some result's value and upper-bounds all results, so when
every result's size reduction is negative the seed `0` survives in place of
the true maximum. -/
theorem c4_bestScore_amended (textEncoderEncode : String → List Nat)
    (payload : JsonVal) (behave : String → Option AdapterOutcome)
    (rs : List TBenchmarkResult)
    (hrs : rs = (startComparison textEncoderEncode payload behave).1) :
    ((∃ r ∈ rs, (newBestScore rs).encodeTime = (r.encodeTime : WithTop ℚ))
      ∧ ∀ r ∈ rs, (newBestScore rs).encodeTime ≤ (r.encodeTime : WithTop ℚ))
    ∧ ((∃ r ∈ rs, (newBestScore rs).decodeTime = (r.decodeTime : WithTop ℚ))
      ∧ ∀ r ∈ rs, (newBestScore rs).decodeTime ≤ (r.decodeTime : WithTop ℚ))
    ∧ ((∃ r ∈ rs, (newBestScore rs).totalTime = (r.totalTime : WithTop ℚ))
      ∧ ∀ r ∈ rs, (newBestScore rs).totalTime ≤ (r.totalTime : WithTop ℚ))
    ∧ (((newBestScore rs).compressionRatio = 0
        ∨ ∃ r ∈ rs, (newBestScore rs).compressionRatio = r.compressionRatio)
      ∧ 0 ≤ (newBestScore rs).compressionRatio
      ∧ ∀ r ∈ rs, r.compressionRatio ≤ (newBestScore rs).compressionRatio)
    ∧ (((newBestScore rs).sizeReduction = 0
        ∨ ∃ r ∈ rs, (newBestScore rs).sizeReduction = r.sizeReduction)
      ∧ 0 ≤ (newBestScore rs).sizeReduction
      ∧ ∀ r ∈ rs, r.sizeReduction ≤ (newBestScore rs).sizeReduction)
    ∧ ((∃ r ∈ rs, (newBestScore rs).compressedSize = r.compressedSize)
      ∧ ∀ r ∈ rs, jsLt (parseFloatNum r.compressedSize)
          (parseFloatNum (newBestScore rs).compressedSize) = false) := by
  subst hrs
  obtain ⟨tl, h0⟩ : ∃ tl, (startComparison textEncoderEncode payload behave).1
      = benchOne textEncoderEncode payload "FFLATE"
          "https://www.npmjs.com/package/fflate" (behave "FFLATE") :: tl := ⟨_, rfl⟩
  have hr0fin := benchOne_compressedSize_finite textEncoderEncode payload "FFLATE"
    "https://www.npmjs.com/package/fflate" (behave "FFLATE")
  refine ⟨?_, ?_, ?_, ?_, ?_, ?_⟩
  · -- encodeTime
    have hproj : (newBestScore (startComparison textEncoderEncode payload behave).1).encodeTime
        = (startComparison textEncoderEncode payload behave).1.foldl
            (fun a r => if (r.encodeTime : WithTop ℚ) < a
              then (r.encodeTime : WithTop ℚ) else a) ⊤ :=
      foldl_bestScore_encodeTime _ bestScoreSeed
    obtain ⟨e1, e2, e3⟩ := foldl_min_spec (fun r : TBenchmarkResult =>
      (r.encodeTime : WithTop ℚ)) (startComparison textEncoderEncode payload behave).1 ⊤
    constructor
    · rcases e1 with etop | ⟨r, hr, hrr⟩
      · exfalso
        have hle := e3 _ (by rw [h0]; exact List.mem_cons_self _ _)
        rw [etop] at hle
        simp at hle
      · exact ⟨r, hr, by rw [hproj]; exact hrr⟩
    · intro r hr
      rw [hproj]
      exact e3 r hr
  · -- decodeTime
    have hproj : (newBestScore (startComparison textEncoderEncode payload behave).1).decodeTime
        = (startComparison textEncoderEncode payload behave).1.foldl
            (fun a r => if (r.decodeTime : WithTop ℚ) < a
              then (r.decodeTime : WithTop ℚ) else a) ⊤ :=
      foldl_bestScore_decodeTime _ bestScoreSeed
    obtain ⟨e1, e2, e3⟩ := foldl_min_spec (fun r : TBenchmarkResult =>
      (r.decodeTime : WithTop ℚ)) (startComparison textEncoderEncode payload behave).1 ⊤
    constructor
    · rcases e1 with etop | ⟨r, hr, hrr⟩
      · exfalso
        have hle := e3 _ (by rw [h0]; exact List.mem_cons_self _ _)
        rw [etop] at hle
        simp at hle
      · exact ⟨r, hr, by rw [hproj]; exact hrr⟩
    · intro r hr
      rw [hproj]
      exact e3 r hr
  · -- totalTime
    have hproj : (newBestScore (startComparison textEncoderEncode payload behave).1).totalTime
        = (startComparison textEncoderEncode payload behave).1.foldl
            (fun a r => if (r.totalTime : WithTop ℚ) < a
              then (r.totalTime : WithTop ℚ) else a) ⊤ :=
      foldl_bestScore_totalTime _ bestScoreSeed
    obtain ⟨e1, e2, e3⟩ := foldl_min_spec (fun r : TBenchmarkResult =>
      (r.totalTime : WithTop ℚ)) (startComparison textEncoderEncode payload behave).1 ⊤
    constructor
    · rcases e1 with etop | ⟨r, hr, hrr⟩
      · exfalso
        have hle := e3 _ (by rw [h0]; exact List.mem_cons_self _ _)
        rw [etop] at hle
        simp at hle
      · exact ⟨r, hr, by rw [hproj]; exact hrr⟩
    · intro r hr
      rw [hproj]
      exact e3 r hr
  · -- compressionRatio
    have hproj : (newBestScore (startComparison textEncoderEncode payload behave).1).compressionRatio
        = (startComparison textEncoderEncode payload behave).1.foldl
            (fun a r => if a < r.compressionRatio then r.compressionRatio else a) 0 :=
      foldl_bestScore_ratio _ bestScoreSeed
    obtain ⟨e1, e2, e3⟩ := foldl_max_spec (fun r : TBenchmarkResult =>
      r.compressionRatio) (startComparison textEncoderEncode payload behave).1 0
    refine ⟨?_, by rw [hproj]; exact e2, fun r hr => by rw [hproj]; exact e3 r hr⟩
    rcases e1 with e1 | ⟨r, hr, hrr⟩
    · exact Or.inl (by rw [hproj]; exact e1)
    · exact Or.inr ⟨r, hr, by rw [hproj]; exact hrr⟩
  · -- sizeReduction
    have hproj : (newBestScore (startComparison textEncoderEncode payload behave).1).sizeReduction
        = (startComparison textEncoderEncode payload behave).1.foldl
            (fun a r => if a < r.sizeReduction then r.sizeReduction else a) 0 :=
      foldl_bestScore_reduction _ bestScoreSeed
    obtain ⟨e1, e2, e3⟩ := foldl_max_spec (fun r : TBenchmarkResult =>
      r.sizeReduction) (startComparison textEncoderEncode payload behave).1 0
    refine ⟨?_, by rw [hproj]; exact e2, fun r hr => by rw [hproj]; exact e3 r hr⟩
    rcases e1 with e1 | ⟨r, hr, hrr⟩
    · exact Or.inl (by rw [hproj]; exact e1)
    · exact Or.inr ⟨r, hr, by rw [hproj]; exact hrr⟩
  · -- compressedSize
    have hproj : (newBestScore (startComparison textEncoderEncode payload behave).1).compressedSize
        = (startComparison textEncoderEncode payload behave).1.foldl
            (fun a r => if jsLt (parseFloatNum r.compressedSize) (parseFloatNum a)
              then r.compressedSize else a) "Infinity" :=
      foldl_bestScore_compressedSize _ bestScoreSeed
    obtain ⟨m1, m2, m3⟩ :=
      foldl_minBy_spec (startComparison textEncoderEncode payload behave).1 "Infinity"
    constructor
    · rcases m1 with minf | ⟨r, hr, hrr⟩
      · exfalso
        obtain ⟨x, hx⟩ := hr0fin
        have hm := m3 _ (by rw [h0]; exact List.mem_cons_self _ _)
        rw [minf] at hm
        rw [hx] at hm
        have : jsLt (some ((x : ℚ) : WithTop ℚ)) (parseFloatNum "Infinity") = true := by
          rw [show parseFloatNum "Infinity" = some (⊤ : WithTop ℚ) from rfl]
          simp [jsLt]
        rw [this] at hm
        simp at hm
      · exact ⟨r, hr, by rw [hproj]; exact hrr⟩
    · intro r hr
      rw [hproj]
      exact m3 r hr

/-- A run environment making every adapter "succeed" while expanding the
tiny payload `{}` (2 bytes) to 100 encoded bytes: every size reduction is
negative (the compression-overhead situation of §8 scenario 1). -/
def c4Behave : String → Option AdapterOutcome :=
  fun _ => some ⟨List.replicate 100 0, 1, 1⟩

theorem c4_rows_reduction :
    ∀ r ∈ (startComparison codesOfStr (JsonVal.obj []) c4Behave).1,
      r.sizeReduction = -4900 := by
  have hstr : jsonStringify (JsonVal.obj []) = "\x7b\x7d" := rfl
  have horig : getSizeInKB codesOfStr (ByteInput.obj (JsonVal.obj [])) = 1 / 512 := by
    simp [getSizeInKB, byteLen, codesOfStr, hstr]
    norm_num
  have hcomp : getSizeInKB codesOfStr (ByteInput.bytes (List.replicate 100 0)) = 25 / 256 := by
    simp [getSizeInKB, byteLen]
    norm_num
  intro r hr
  simp only [startComparison, compressionLibraries, List.map_cons, List.map_nil,
    List.mem_cons, List.not_mem_nil, or_false] at hr
  rcases hr with rfl | rfl | rfl | rfl | rfl <;>
    (simp only [benchOne, c4Behave]; rw [hcomp, horig]; norm_num)

/-- C4 counterexample: on a run where every adapter expands the payload,
every result's size reduction is `-4900`, yet the best-score summary
reports `0` (and `-4900 ≠ 0`): the `0` seed survives against real results
and the summary field is not the maximum of the results' size
reductions. -/
theorem c4_bestScore_counterexample :
    (∀ r ∈ (startComparison codesOfStr (JsonVal.obj []) c4Behave).1,
        r.sizeReduction = -4900)
    ∧ (newBestScore (startComparison codesOfStr (JsonVal.obj []) c4Behave).1).sizeReduction
        = 0
    ∧ ((-4900 : ℚ) ≠ 0) := by
  refine ⟨c4_rows_reduction, ?_, by norm_num⟩
  have hproj : (newBestScore (startComparison codesOfStr (JsonVal.obj []) c4Behave).1).sizeReduction
      = (startComparison codesOfStr (JsonVal.obj []) c4Behave).1.foldl
          (fun a r => if a < r.sizeReduction then r.sizeReduction else a) 0 :=
    foldl_bestScore_reduction _ bestScoreSeed
  obtain ⟨e1, e2, e3⟩ := foldl_max_spec (fun r : TBenchmarkResult => r.sizeReduction)
    (startComparison codesOfStr (JsonVal.obj []) c4Behave).1 0
  rcases e1 with e1 | ⟨r, hr, hrr⟩
  · rw [hproj, e1]
  · exfalso
    have hneg := c4_rows_reduction r hr
    rw [hneg] at hrr
    rw [hrr] at e2
    norm_num at e2

/-! ## Application state and payload lifecycle (`src/App.tsx`) -/

/-- The `App` component's state: `payload`, `bestScore`, `benchmarkResults`
and `isLoading` (`useState` hooks in `src/App.tsx` lines 96–99). -/
structure AppState where
  payload : Option JsonVal
  bestScore : Option TBestScore
  benchmarkResults : List TBenchmarkResult
  isLoading : Bool

/-- `resetPayload` from `src/App.tsx` lines 231–234: `setPayload(undefined)`
and `setBenchmarkResults([])` — and nothing else. -/
def resetPayload (st : AppState) : AppState :=
  { st with payload := none, benchmarkResults := [] }

/-- The `reader.onload` handler of `uploadCustomPayload` from `src/App.tsx`
lines 119–133: a file named `*.json` is parsed as JSON into the payload
(`alert` on parse failure, nothing else changed); any other file's text is
wrapped as `{ content }`.  Returns the new state and the raised alerts. -/
def uploadOnload (fileName content : String) (st : AppState) : AppState × List String :=
  if List.isSuffixOf ".json".data fileName.data then
    match jsonParse content with
    | some parsedPayload => ({ st with payload := some parsedPayload }, [])
    | none => (st, ["Error parsing JSON file. Please ensure it is valid JSON."])
  else
    ({ st with payload := some (JsonVal.obj [("content", JsonVal.str content)]) }, [])

/-- C5 counterexample: resetting from a state holding a prior run's
best-score summary leaves that summary in place — `resetPayload` clears the
payload and the benchmark results but not `bestScore`, so the claim that
reset discards the Best-Score Summary fails. -/
theorem c5_reset_counterexample :
    (resetPayload
      { payload := some (JsonVal.obj []),
        bestScore := some
          { compressedSize := "1.0 KB", encodeTime := ((1 : ℚ) : WithTop ℚ),
            decodeTime := ((1 : ℚ) : WithTop ℚ), totalTime := ((2 : ℚ) : WithTop ℚ),
            compressionRatio := 2, sizeReduction := 50 },
        benchmarkResults := [zeroResult "FFLATE" "https://www.npmjs.com/package/fflate"],
        isLoading := false }).payload = none
    ∧ (resetPayload
      { payload := some (JsonVal.obj []),
        bestScore := some
          { compressedSize := "1.0 KB", encodeTime := ((1 : ℚ) : WithTop ℚ),
            decodeTime := ((1 : ℚ) : WithTop ℚ), totalTime := ((2 : ℚ) : WithTop ℚ),
            compressionRatio := 2, sizeReduction := 50 },
        benchmarkResults := [zeroResult "FFLATE" "https://www.npmjs.com/package/fflate"],
        isLoading := false }).benchmarkResults = []
    ∧ (resetPayload
      { payload := some (JsonVal.obj []),
        bestScore := some
          { compressedSize := "1.0 KB", encodeTime := ((1 : ℚ) : WithTop ℚ),
            decodeTime := ((1 : ℚ) : WithTop ℚ), totalTime := ((2 : ℚ) : WithTop ℚ),
            compressionRatio := 2, sizeReduction := 50 },
        benchmarkResults := [zeroResult "FFLATE" "https://www.npmjs.com/package/fflate"],
        isLoading := false }).bestScore ≠ none := by
  refine ⟨rfl, rfl, ?_⟩
  simp [resetPayload]

/-- C5 (amended): from any state, reset leaves the payload empty and
discards the benchmark-results sequence, but the Best-Score Summary of a
prior run is retained unchanged in state until the next run overwrites it
(it is merely unrendered while the results list is empty). -/
theorem c5_reset_amended (st : AppState) :
    (resetPayload st).payload = none
    ∧ (resetPayload st).benchmarkResults = []
    ∧ (resetPayload st).bestScore = st.bestScore :=
  ⟨rfl, rfl, rfl⟩

/-- C7: when an uploaded file whose name ends in `.json` fails JSON parsing,
the user is notified with the parse-error alert and the state — in
particular the current payload — is left unchanged. -/
theorem c7_parse_error_unchanged (fileName content : String) (st : AppState)
    (hname : List.isSuffixOf ".json".data fileName.data = true)
    (hparse : jsonParse content = none) :
    uploadOnload fileName content st
      = (st, ["Error parsing JSON file. Please ensure it is valid JSON."]) := by
  simp [uploadOnload, hname, hparse]

theorem c7_parse_error_unchanged_witness :
    List.isSuffixOf ".json".data "a.json".data = true
    ∧ jsonParse "\x7b" = none
    ∧ uploadOnload "a.json" "\x7b" ⟨none, none, [], false⟩
        = (⟨none, none, [], false⟩,
           ["Error parsing JSON file. Please ensure it is valid JSON."]) :=
  ⟨by decide, rfl,
   c7_parse_error_unchanged "a.json" "\x7b" ⟨none, none, [], false⟩ (by decide) rfl⟩

/-- A run environment in which exactly the Pako adapter throws. -/
def c3Behave : String → Option AdapterOutcome :=
  fun n => if n = "Pako" then none else some ⟨[0], 1, 1⟩

theorem c3_failure_isolated_witness :
    c3Behave "Pako" = none
    ∧ (startComparison codesOfStr (JsonVal.obj []) c3Behave).1.get ⟨1, by decide⟩
        = zeroResult "Pako" "https://www.npmjs.com/package/pako" := by
  refine ⟨rfl, ?_⟩
  exact (c3_failure_isolated codesOfStr (JsonVal.obj []) c3Behave 1 (by decide)
    (by decide) (by rfl)).1

theorem c4_bestScore_amended_witness :
    ((startComparison codesOfStr (JsonVal.obj []) c4Behave).1
        = (startComparison codesOfStr (JsonVal.obj []) c4Behave).1)
    ∧ (((newBestScore (startComparison codesOfStr (JsonVal.obj []) c4Behave).1).sizeReduction
          = 0
        ∨ ∃ r ∈ (startComparison codesOfStr (JsonVal.obj []) c4Behave).1,
            (newBestScore (startComparison codesOfStr (JsonVal.obj []) c4Behave).1).sizeReduction
              = r.sizeReduction)
      ∧ 0 ≤ (newBestScore (startComparison codesOfStr (JsonVal.obj []) c4Behave).1).sizeReduction
      ∧ ∀ r ∈ (startComparison codesOfStr (JsonVal.obj []) c4Behave).1,
          r.sizeReduction
            ≤ (newBestScore (startComparison codesOfStr (JsonVal.obj []) c4Behave).1).sizeReduction) :=
  ⟨rfl, (c4_bestScore_amended codesOfStr (JsonVal.obj []) c4Behave
    (startComparison codesOfStr (JsonVal.obj []) c4Behave).1 rfl).2.2.2.2.1⟩
